import Mathlib

set_option maxRecDepth 10000

/-!
Shallow embedding of the incremental retrieval-augmented QA pipeline of the
Gmail-inbox RAG repository, together with proofs about it.

The embedding covers:
* `clean_text` (src/utils/text_processing.py), with each `re.sub` call
  modelled as a structurally recursive scanner over `List Char`;
* the ingestion pipeline `create_vector_database` / `update_vector_database`
  (src/data/vectordb.py), with the ChromaDB collection modelled as a list of
  entries and `collection.add` modelled by ChromaDB's duplicate-id behaviour
  (an insert whose id already exists is rejected, never overwritten);
* the question-answering path `ask_question_with_groq` (src/rag/qa_engine.py),
  with the embedding model and cosine ranking abstracted into a score
  function and the Groq HTTP call abstracted into an oracle from the prompt
  string to an outcome;
* the corpus merge performed by the app
  (`pd.concat` + `drop_duplicates(subset=["id"], keep="last")`, src/app.py).

Python character classes (`\s`, `\w`, `\d`, `str.lower`) are modelled on the
ASCII range; Python's versions are Unicode-aware, but every concrete input
used below is ASCII.
-/

/-! ## Text normalisation (src/utils/text_processing.py) -/

/-- Python regex `\s` on the ASCII range: space, tab, newline, carriage
return, vertical tab, form feed. -/
def pyIsSpace (c : Char) : Bool :=
  c = ' ' || c = '\t' || c = '\n' || c = '\r' || c = '\x0b' || c = '\x0c'

/-- Python regex `\w` on the ASCII range: letters, digits and underscore. -/
def pyIsWord (c : Char) : Bool :=
  c.isAlphanum || c = '_'

/-- Does a match of `http\S+` start at the head of the list?  It does when
the list starts with `http` followed by at least one non-whitespace
character. -/
def isUrlStart : List Char → Bool
  | 'h' :: 't' :: 't' :: 'p' :: c :: _ => !pyIsSpace c
  | _ => false

/-- Scanner for `re.sub(r'http\S+', '', text)`.  The flag records whether the
scanner is currently deleting the non-whitespace run of a match; a match
consumes `http` and every following non-whitespace character, and scanning
resumes at the following whitespace character (which is kept). -/
def subHttpAux : Bool → List Char → List Char
  | _, [] => []
  | true, c :: cs => if pyIsSpace c then c :: subHttpAux false cs else subHttpAux true cs
  | false, c :: cs => if isUrlStart (c :: cs) then subHttpAux true cs else c :: subHttpAux false cs

/-- The substitution `re.sub(r'http\S+', '', text)` over a character list. -/
def subHttp (l : List Char) : List Char :=
  subHttpAux false l

/-- Scanner for `re.sub(r'\S*@\S*\s?', '', text)`.  At a position holding a
non-whitespace character, the pattern matches exactly when the maximal
non-whitespace run starting there contains an `@`; the match consumes that
whole run plus (greedy `\s?`) one following whitespace character.  The flag
records whether the scanner is currently deleting a matched run. -/
def subEmailAux : Bool → List Char → List Char
  | _, [] => []
  | true, c :: cs => if pyIsSpace c then subEmailAux false cs else subEmailAux true cs
  | false, c :: cs =>
    if pyIsSpace c then c :: subEmailAux false cs
    else if '@' ∈ (c :: cs).takeWhile (fun x => !pyIsSpace x) then subEmailAux true cs
    else c :: subEmailAux false cs

/-- The substitution `re.sub(r'\S*@\S*\s?', '', text)` over a character list. -/
def subEmail (l : List Char) : List Char :=
  subEmailAux false l

/-- The substitution `re.sub(r'[^\w\s]', ' ', text)`: every character that is neither a word
character nor whitespace becomes a single space. -/
def toSpaceNonWord (l : List Char) : List Char :=
  l.map (fun c => if pyIsWord c || pyIsSpace c then c else ' ')

/-- The substitution `re.sub(r'\d+', '', text)`: deleting every maximal digit run deletes
exactly the digit characters. -/
def removeDigits (l : List Char) : List Char :=
  l.filter (fun c => !c.isDigit)

/-- Scanner for `re.sub(r'\s+', ' ', text)`: every maximal whitespace run
becomes one space.  The flag records whether the previous character belonged
to a run that has already emitted its space. -/
def collapseWsAux : Bool → List Char → List Char
  | _, [] => []
  | true, c :: cs => if pyIsSpace c then collapseWsAux true cs else c :: collapseWsAux false cs
  | false, c :: cs => if pyIsSpace c then ' ' :: collapseWsAux true cs else c :: collapseWsAux false cs

/-- The substitution `re.sub(r'\s+', ' ', text)` over a character list. -/
def collapseWs (l : List Char) : List Char :=
  collapseWsAux false l

/-- Remove the maximal trailing whitespace run (half of Python `str.strip`):
a character is dropped exactly when it is whitespace and everything after it
is dropped. -/
def stripEnd : List Char → List Char
  | [] => []
  | c :: cs => if pyIsSpace c = true ∧ stripEnd cs = [] then [] else c :: stripEnd cs

/-- Python `str.strip()`: remove leading and trailing whitespace. -/
def stripWs (l : List Char) : List Char :=
  stripEnd (l.dropWhile pyIsSpace)

/-- The normalisation pipeline of `clean_text` on a character list, in source
order: lowercase, strip URLs, strip email-address tokens, replace
non-word/non-space characters by a space, delete digits, collapse whitespace,
trim. -/
def cleanPipeline (l : List Char) : List Char :=
  stripWs (collapseWs (removeDigits (toSpaceNonWord (subEmail (subHttp (l.map Char.toLower))))))

/-- The normaliser `clean_text` (src/utils/text_processing.py).  The input is an
`Option String` so that Python `None` is representable; `if not text` is true
exactly for `None` and the empty string. -/
def clean_text : Option String → String
  | none => ""
  | some s => if s = "" then "" else ⟨cleanPipeline s.data⟩

/-- Does the string contain a match of `http\S+` (the substring `http`
followed immediately by a non-whitespace character)? -/
def hasUrlToken (s : String) : Bool :=
  s.data.tails.any isUrlStart

/-! ## Data model (src/data/vectordb.py, src/data/email_fetcher.py) -/

/-- One fetched email row, as consumed by the vector-database code.  A field
whose value is not a string in the DataFrame (`NaN`, `None`, a timestamp for
`date`) is represented by `none`; `date = some d` means `pd.notna` holds and
`str(row['date']) = d`.  The `labels` column is never read by the embedded
code and is omitted. -/
structure Row where
  id : String
  subject : Option String
  sender : Option String
  body : Option String
  date : Option String
deriving DecidableEq

/-- The metadata stored with an indexed document (source key `from` is named
`sender` here because `from` is a Lean keyword). -/
structure Meta where
  subject : String
  sender : String
  date : String
deriving DecidableEq

/-- One entry of the ChromaDB collection: id, document text and display
metadata.  The embedding vector is a function of the document text and
carries no further information used by any claim, so it is not stored. -/
structure Entry where
  id : String
  text : String
  meta : Meta
deriving DecidableEq

/-- The per-row preparation performed identically by `create_vector_database`
and `update_vector_database`: document text `"Subject: {subject}\n\nBody:
{body}"` and metadata `{subject[:100], from[:100], str(date)}`, with
non-string fields coerced to the empty string. -/
def mkEntry (r : Row) : Entry :=
  { id := r.id
    text := "Subject: " ++ r.subject.getD "" ++ "\n\nBody: " ++ r.body.getD ""
    meta :=
      { subject := (r.subject.getD "").take 100
        sender := (r.sender.getD "").take 100
        date := r.date.getD "" } }

/-- ChromaDB `collection.add`: each entry of the batch is appended unless an
entry with the same id is already present, in which case the insert is
rejected and the existing entry is kept unchanged (`add` never overwrites;
depending on the ChromaDB version a duplicate id is skipped with a warning or
raises `DuplicateIDError` — in neither case is the stored entry replaced). -/
def collAdd (coll : List Entry) (batch : List Entry) : List Entry :=
  batch.foldl (fun c e => if c.any (fun x => x.id == e.id) then c else c ++ [e]) coll

/-- Helper for `chunksOf`: `acc` is the current chunk reversed, `n` the
remaining capacity of the current chunk. -/
def chunksGo : List α → List α → Nat → List (List α)
  | [], acc, _ => [acc.reverse]
  | x :: xs, acc, 0 => acc.reverse :: chunksGo xs [x] 31
  | x :: xs, acc, n + 1 => chunksGo xs (x :: acc) n

/-- The batching loop `for i in range(0, len(documents), 32)` with slices
`[i:i+32]`: consecutive chunks of at most 32 elements in input order. -/
def chunksOf : List α → List (List α)
  | [] => []
  | x :: xs => chunksGo xs [x] 31

/-- Observable events of an ingestion run: a progress report
(`progress_bar.progress(batch_num/total_batches)`, recorded as the pair),
an embedding computation, a `collection.add` call, and a
`client.get_collection` call. -/
inductive Ev where
  | progress (num den : Nat)
  | encode (docs : List String)
  | add (ids : List String)
  | getCollection
deriving DecidableEq

/-- How an ingestion run ends: a Python return value, or an exception that
propagates to the caller. -/
inductive RunResult where
  | returned (b : Bool)
  | raised
deriving DecidableEq

/-- Result of `create_vector_database`: its event trace, how it ended, and
the final collection contents. -/
structure CreateOut where
  events : List Ev
  result : RunResult
  coll : List Entry
deriving DecidableEq

/-- The batch loop of `create_vector_database` (lines 68-84).  `fail k = true`
means the embedding or `collection.add` of chunk `k` raises; the loop is not
guarded by `try`, so the exception propagates (`RunResult.raised`) and a
failing chunk commits nothing.  With a progress bar, each iteration first
reports `batch_num/total_batches` (1-based `batch_num`). -/
def runCreateChunks (fail : Nat → Bool) (bar : Bool) (tb : Nat) :
    Nat → List Entry → List (List Entry) → CreateOut
  | _, coll, [] => ⟨[], .returned true, coll⟩
  | k, coll, c :: cs =>
    let pev : List Ev := if bar then [.progress (k + 1) tb] else []
    if fail k then ⟨pev, .raised, coll⟩
    else
      let rest := runCreateChunks fail bar tb (k + 1) (collAdd coll c) cs
      ⟨pev ++ [.encode (c.map Entry.text), .add (c.map Entry.id)] ++ rest.events,
        rest.result, rest.coll⟩

/-- Full build `create_vector_database` (src/data/vectordb.py lines 17-87): recreate the
collection (so ingestion starts from an empty collection), prepare one entry
per row, report progress 0, then ingest in chunks of 32.
`tb = (len(documents) + 32 - 1) // 32` is `total_batches`.  The collection
recreation itself is assumed to succeed (its failure path only returns
`False` before any chunk work and is not the subject of any claim). -/
def create_vector_database (fail : Nat → Bool) (rows : List Row) (bar : Bool) : CreateOut :=
  let entries := rows.map mkEntry
  let tb := (entries.length + 32 - 1) / 32
  let run := runCreateChunks fail bar tb 0 [] (chunksOf entries)
  ⟨(if bar then [Ev.progress 0 tb] else []) ++ run.events, run.result, run.coll⟩

/-- The batch loop of `update_vector_database` (lines 122-134).  The whole
body is inside `try`, so the first failing chunk makes the function return
`False`, keeping the chunks committed before it. -/
def runUpdateChunks (fail : Nat → Bool) :
    Nat → List Entry → List (List Entry) → List Ev × Bool × List Entry
  | _, coll, [] => ([], true, coll)
  | k, coll, c :: cs =>
    if fail k then ([], false, coll)
    else
      let rest := runUpdateChunks fail (k + 1) (collAdd coll c) cs
      (Ev.encode (c.map Entry.text) :: Ev.add (c.map Entry.id) :: rest.1, rest.2)

/-- Incremental update `update_vector_database` (src/data/vectordb.py lines 89-139): a `None` or
empty input returns `False` immediately, before the collection is touched;
otherwise the existing collection is fetched and the prepared entries are
ingested in chunks of 32. -/
def update_vector_database (fail : Nat → Bool) (input : Option (List Row))
    (coll : List Entry) : List Ev × Bool × List Entry :=
  match input with
  | none => ([], false, coll)
  | some rows =>
    if rows.length = 0 then ([], false, coll)
    else
      let run := runUpdateChunks fail 0 coll (chunksOf (rows.map mkEntry))
      (Ev.getCollection :: run.1, run.2)

/-! ## Question answering (src/rag/qa_engine.py) -/

/-- Outcome of the `requests.post` call to the Groq endpoint:
`ok content` is a 200 response whose body parses to
`choices[0].message.content = content`; `badStatus code text` is a response
with `status_code = code ≠ 200` and body text `text`; `raise msg` covers a
network error from `requests.post` itself or a 200 response whose body fails
to parse (both raise inside the `try`, with `str(e) = msg`). -/
inductive LlmOutcome where
  | ok (content : String)
  | badStatus (code : Nat) (text : String)
  | raise (msg : String)

/-- One element of the returned `sources` list. -/
structure QaSource where
  metadata : Meta
  excerpt : String
deriving DecidableEq

/-- The value returned by `ask_question_with_groq`. -/
structure QaResponse where
  answer : String
  sources : List QaSource
deriving DecidableEq

/-- Stable insertion into a list sorted by descending key: an element moves
ahead only of strictly smaller keys, so earlier elements win ties. -/
def insertRanked (key : Entry → Int) (e : Entry) : List Entry → List Entry
  | [] => [e]
  | x :: xs => if key e ≥ key x then e :: x :: xs else x :: insertRanked key e xs

/-- The cosine-similarity ranking performed by `collection.query`, modelled
by an abstract score function: the collection sorted by descending score for
the question, deterministically (stable in insertion order). -/
def rankEntries (score : String → Entry → Int) (q : String) : List Entry → List Entry
  | [] => []
  | x :: xs => insertRanked (score q) x (rankEntries score q xs)

/-- The documents a query returns: the top `n_results = 8` of the ranking. -/
def retrievedFor (score : String → Entry → Int) (q : String) (entries : List Entry) :
    List Entry :=
  (rankEntries score q entries).take 8

/-- The context block (lines 32-35): for each retrieved document, in ranked
order, `Email i` with its From/Date/Subject metadata and the document text,
joined by the visible separator `\n\n---\n\n`. -/
def contextFor (retrieved : List Entry) : String :=
  String.intercalate "\n\n---\n\n"
    (retrieved.enum.map (fun p =>
      "Email " ++ toString (p.1 + 1) ++ ":\nFrom: " ++ p.2.meta.sender ++
        "\nDate: " ++ p.2.meta.date ++ "\nSubject: " ++ p.2.meta.subject ++
        "\n\n" ++ p.2.text))

/-- The user-message prompt (lines 44-61), with the question and the context
interpolated at their places in the f-string. -/
def groqPrompt (question context : String) : String :=
  "\n            You are an email assistant that provides precise, accurate answers to questions about emails.\n            \n            Analyze the following emails from the user\x27s inbox to answer their question: \"" ++
    question ++
    "\"\n            \n            " ++
    context ++
    "\n            \n            Important instructions:\n            1. Only use information clearly present in the provided emails\n            2. If the emails don\x27t contain information to answer the question, say \"I don\x27t have enough information in the provided emails to answer this question\"\n            3. Focus on the user\x27s specific question and provide a direct, concise answer\n            4. Include key details from the emails that support your answer\n            5. If multiple emails contain relevant information, synthesize them into a coherent answer\n            6. Don\x27t make assumptions about content not shown in the emails\n            7. If the question is ambiguous, address the most likely interpretation based on the emails\n            \n            Give a precise, helpful answer based solely on the emails provided.\n            "

/-- The answer operation `ask_question_with_groq` (src/rag/qa_engine.py lines 14-86).
`coll = none` models a client without the `email_collection` collection:
`client.get_collection` then raises (message as raised by ChromaDB) and the
exception propagates, since nothing guards it.  Otherwise the collection is
queried for the top 8 documents, the context and prompt are assembled, and
the completion call — abstracted as the oracle `llm` applied to the prompt —
is handled: 200 with parseable body returns the content verbatim; a non-200
status yields the error answer built from the status code and body (no
excerpt); an exception inside the `try` yields the degraded answer holding
the top-ranked document text, except that with zero retrieved documents
`relevant_docs[0]` itself raises `IndexError`, which nothing catches.
`sources` is built from every retrieved document in ranked order. -/
def ask_question_with_groq (question : String) (score : String → Entry → Int)
    (coll : Option (List Entry)) (llm : String → LlmOutcome) : Except String QaResponse :=
  match coll with
  | none => .error "Collection email_collection does not exist."
  | some entries =>
    let retrieved := retrievedFor score question entries
    let relevant_docs := retrieved.map Entry.text
    let context := contextFor retrieved
    let answerE : Except String String :=
      match llm (groqPrompt question context) with
      | .ok content => .ok content
      | .badStatus code text => .ok ("Error with Groq API: " ++ toString code ++ " - " ++ text)
      | .raise msg =>
        match relevant_docs with
        | [] => .error "list index out of range"
        | d :: _ =>
          .ok ("Error generating answer: " ++ msg ++
            "\n\nHere\x27s the most relevant email content for your question:\n\n" ++ d)
    answerE.map (fun answer =>
      { answer := answer
        sources := retrieved.map (fun e => { metadata := e.meta, excerpt := e.text.take 200 ++ "..." }) })

/-! ## Corpus merge (src/app.py lines 117-118, src/data/email_fetcher.py
lines 153-154) -/

/-- Pandas `drop_duplicates(subset=['id'], keep='last')`: a row is kept exactly when
no later row carries the same id, preserving the order of the kept rows. -/
def drop_duplicates_keep_last : List Row → List Row
  | [] => []
  | r :: rs =>
    if rs.any (fun x => x.id == r.id) then drop_duplicates_keep_last rs
    else r :: drop_duplicates_keep_last rs

/-- The merge of the previously held corpus with a newly fetched batch:
`pd.concat([old, new])` followed by `drop_duplicates(subset=['id'],
keep='last')` (the `reset_index` only renumbers rows). -/
def mergeCorpora (old new : List Row) : List Row :=
  drop_duplicates_keep_last (old ++ new)

/-! ## Helper predicates over ingestion traces -/

/-- Is the event a progress report? -/
def isProgressEv : Ev → Bool
  | .progress _ _ => true
  | _ => false

/-- Does a progress report occur strictly after every `collection.add` event
of the trace? -/
def reportsAfterEveryAdd : List Ev → Bool
  | [] => true
  | Ev.add _ :: rest => (rest.any isProgressEv && reportsAfterEveryAdd rest)
  | _ :: rest => reportsAfterEveryAdd rest

/-! ## Lemmas about chunking -/

theorem chunksGo_eq (xs : List α) : ∀ (acc : List α) (n : Nat),
    chunksGo xs acc n = (acc.reverse ++ xs.take n) :: chunksOf (xs.drop n) := by
  induction xs with
  | nil => intro acc n; simp [chunksGo, chunksOf]
  | cons x xs ih =>
    intro acc n
    cases n with
    | zero => simp [chunksGo, chunksOf]
    | succ n =>
      rw [chunksGo, ih (x :: acc) n]
      simp [List.append_assoc]

theorem chunksOf_cons (x : α) (xs : List α) :
    chunksOf (x :: xs) = (x :: xs).take 32 :: chunksOf ((x :: xs).drop 32) := by
  rw [chunksOf, chunksGo_eq]
  simp

theorem chunksOf_join_of_le : ∀ (n : Nat) (l : List α), l.length ≤ n →
    (chunksOf l).flatten = l := by
  intro n
  induction n with
  | zero =>
    intro l hl
    have : l = [] := List.eq_nil_of_length_eq_zero (Nat.le_zero.mp hl)
    subst this; rfl
  | succ n ih =>
    intro l hl
    cases l with
    | nil => rfl
    | cons x xs =>
      rw [chunksOf_cons, List.flatten_cons, ih ((x :: xs).drop 32)
        (by simp at hl ⊢; omega), List.take_append_drop]

/-- The chunks concatenate back to the input: the partition preserves order
and loses nothing. -/
theorem chunksOf_join (l : List α) : (chunksOf l).flatten = l :=
  chunksOf_join_of_le l.length l (Nat.le_refl _)

theorem chunksOf_mem_of_le : ∀ (n : Nat) (l : List α), l.length ≤ n →
    ∀ c ∈ chunksOf l, c.length ≤ 32 ∧ c ≠ [] := by
  intro n
  induction n with
  | zero =>
    intro l hl c hc
    have : l = [] := List.eq_nil_of_length_eq_zero (Nat.le_zero.mp hl)
    subst this; simp [chunksOf] at hc
  | succ n ih =>
    intro l hl c hc
    cases l with
    | nil => simp [chunksOf] at hc
    | cons x xs =>
      rw [chunksOf_cons] at hc
      rcases List.mem_cons.mp hc with hc1 | hc1
      · subst hc1
        refine ⟨List.length_take_le _ _, ?_⟩
        simp [List.take_succ_cons]
      · exact ih ((x :: xs).drop 32) (by simp at hl ⊢; omega) c hc1

/-- Every chunk has at most 32 records and is non-empty. -/
theorem chunksOf_mem (l : List α) : ∀ c ∈ chunksOf l, c.length ≤ 32 ∧ c ≠ [] :=
  chunksOf_mem_of_le l.length l (Nat.le_refl _)

/-! ## Lemmas about `collection.add` accumulation -/

theorem collAdd_append : ∀ (batch coll : List Entry),
    ((coll ++ batch).map Entry.id).Nodup → collAdd coll batch = coll ++ batch := by
  intro batch
  induction batch with
  | nil => intro coll _; simp [collAdd]
  | cons b bs ih =>
    intro coll h
    have hb : b.id ∉ coll.map Entry.id := by
      intro hmem
      rw [List.map_append, List.nodup_append] at h
      exact h.2.2 hmem (by simp)
    have hany : coll.any (fun x => x.id == b.id) = false := by
      simp only [List.any_eq_false, beq_iff_eq]
      intro x hx hxe
      exact hb (hxe ▸ List.mem_map_of_mem Entry.id hx)
    have hstep : collAdd coll (b :: bs) = collAdd (coll ++ [b]) bs := by
      simp only [collAdd, List.foldl_cons]
      rw [hany]
      simp
    have h' : (((coll ++ [b]) ++ bs).map Entry.id).Nodup := by
      rwa [List.append_cons] at h
    rw [hstep, ih (coll ++ [b]) h']
    simp

theorem foldl_collAdd_append : ∀ (cs : List (List Entry)) (coll : List Entry),
    ((coll ++ cs.flatten).map Entry.id).Nodup → cs.foldl collAdd coll = coll ++ cs.flatten := by
  intro cs
  induction cs with
  | nil => intro coll _; simp
  | cons c cs ih =>
    intro coll h
    rw [List.flatten_cons, ← List.append_assoc] at h
    have h1 : ((coll ++ c).map Entry.id).Nodup :=
      List.Nodup.sublist ((List.sublist_append_left (coll ++ c) cs.flatten).map Entry.id) h
    rw [List.foldl_cons, collAdd_append c coll h1, ih (coll ++ c) h]
    simp

/-! ## Lemmas about the ingestion loops -/

theorem runCreateChunks_nofail (bar : Bool) (tb : Nat) :
    ∀ (cs : List (List Entry)) (k : Nat) (coll : List Entry),
    runCreateChunks (fun _ => false) bar tb k coll cs =
      ⟨(cs.enumFrom k).flatMap (fun p =>
          (if bar then [Ev.progress (p.1 + 1) tb] else []) ++
            [Ev.encode (p.2.map Entry.text), Ev.add (p.2.map Entry.id)]),
        .returned true, cs.foldl collAdd coll⟩ := by
  intro cs
  induction cs with
  | nil => intro k coll; simp [runCreateChunks]
  | cons c cs ih =>
    intro k coll
    rw [runCreateChunks]
    simp only [Bool.false_eq_true, if_false, List.enumFrom_cons, List.flatMap_cons,
      ih (k + 1) (collAdd coll c), List.foldl_cons]

theorem runCreateChunks_fail (fail : Nat → Bool) (bar : Bool) (tb : Nat) :
    ∀ (cs : List (List Entry)) (m k : Nat) (coll : List Entry),
    m < cs.length → (∀ j, j < m → fail (k + j) = false) → fail (k + m) = true →
    (runCreateChunks fail bar tb k coll cs).result = .raised ∧
    (runCreateChunks fail bar tb k coll cs).coll = (cs.take m).foldl collAdd coll := by
  intro cs
  induction cs with
  | nil => intro m k coll hm _ _; simp at hm
  | cons c cs ih =>
    intro m k coll hm hpre hf
    cases m with
    | zero =>
      have h0 : fail k = true := by simpa using hf
      rw [runCreateChunks]
      simp [h0]
    | succ m =>
      have h0 : fail k = false := by simpa using hpre 0 (Nat.succ_pos m)
      have hpre' : ∀ j, j < m → fail (k + 1 + j) = false := by
        intro j hj
        have harith : k + 1 + j = k + (j + 1) := by omega
        rw [harith]
        exact hpre (j + 1) (by omega)
      have hf' : fail (k + 1 + m) = true := by
        have harith : k + 1 + m = k + (m + 1) := by omega
        rw [harith]; exact hf
      have hm' : m < cs.length := by simpa using Nat.lt_of_succ_lt_succ hm
      have := ih m (k + 1) (collAdd coll c) hm' hpre' hf'
      rw [runCreateChunks]
      simp only [h0, Bool.false_eq_true, if_false, List.take_succ_cons, List.foldl_cons]
      exact this

theorem runUpdateChunks_nofail :
    ∀ (cs : List (List Entry)) (k : Nat) (coll : List Entry),
    runUpdateChunks (fun _ => false) k coll cs =
      (cs.flatMap (fun c => [Ev.encode (c.map Entry.text), Ev.add (c.map Entry.id)]),
        true, cs.foldl collAdd coll) := by
  intro cs
  induction cs with
  | nil => intro k coll; simp [runUpdateChunks]
  | cons c cs ih =>
    intro k coll
    rw [runUpdateChunks]
    simp only [Bool.false_eq_true, if_false, List.flatMap_cons,
      ih (k + 1) (collAdd coll c), List.foldl_cons]
    rfl

theorem runUpdateChunks_fail (fail : Nat → Bool) :
    ∀ (cs : List (List Entry)) (m k : Nat) (coll : List Entry),
    m < cs.length → (∀ j, j < m → fail (k + j) = false) → fail (k + m) = true →
    (runUpdateChunks fail k coll cs).2 = (false, (cs.take m).foldl collAdd coll) := by
  intro cs
  induction cs with
  | nil => intro m k coll hm _ _; simp at hm
  | cons c cs ih =>
    intro m k coll hm hpre hf
    cases m with
    | zero =>
      have h0 : fail k = true := by simpa using hf
      rw [runUpdateChunks]
      simp [h0]
    | succ m =>
      have h0 : fail k = false := by simpa using hpre 0 (Nat.succ_pos m)
      have hpre' : ∀ j, j < m → fail (k + 1 + j) = false := by
        intro j hj
        have harith : k + 1 + j = k + (j + 1) := by omega
        rw [harith]
        exact hpre (j + 1) (by omega)
      have hf' : fail (k + 1 + m) = true := by
        have harith : k + 1 + m = k + (m + 1) := by omega
        rw [harith]; exact hf
      have hm' : m < cs.length := by simpa using Nat.lt_of_succ_lt_succ hm
      have := ih m (k + 1) (collAdd coll c) hm' hpre' hf'
      rw [runUpdateChunks]
      simp only [h0, Bool.false_eq_true, if_false, List.take_succ_cons, List.foldl_cons]
      exact this

theorem map_id_mkEntry (rows : List Row) :
    (rows.map mkEntry).map Entry.id = rows.map Row.id := by
  simp only [List.map_map]
  rfl

/-- A concrete row used by several witnesses. -/
def row0 : Row := ⟨"a", some "hello", some "alice", some "world", some "2024-01-01"⟩

/-! ## Claim C10 -/

/-- Claim C10: for every index state, calling the incremental update with a
`None` or empty record set returns failure immediately and leaves the vector
index unchanged — the event trace is empty, so no collection access,
embedding, or index write occurs. -/
theorem claim10_empty_update_noop (fail : Nat → Bool) (input : Option (List Row))
    (coll : List Entry) (h : input = none ∨ input = some []) :
    update_vector_database fail input coll = ([], false, coll) := by
  rcases h with h | h <;> subst h <;> rfl

theorem claim10_witness :
    ((none : Option (List Row)) = none ∨ (none : Option (List Row)) = some []) ∧
      update_vector_database (fun _ => false) none [mkEntry row0] = ([], false, [mkEntry row0]) :=
  ⟨Or.inl rfl, claim10_empty_update_noop (fun _ => false) none [mkEntry row0] (Or.inl rfl)⟩

/-! ## Claim C9 -/

/-- Claim C9: if chunk `k` of an ingestion run is the first to fail
(embedding or index write), the run aborts there and reports failure to the
caller — `update_vector_database` returns `False`, `create_vector_database`
lets the exception propagate — while the final collection consists of
exactly the chunks committed before the failing one added to the initial
state (no rollback, at-least-once semantics). -/
theorem claim9_partial_failure_retention (fail : Nat → Bool) (rows : List Row)
    (coll : List Entry) (k : Nat)
    (hk : k < (chunksOf (rows.map mkEntry)).length)
    (hpre : ∀ j, j < k → fail j = false) (hfail : fail k = true) :
    (update_vector_database fail (some rows) coll).2.1 = false ∧
    (update_vector_database fail (some rows) coll).2.2 =
      ((chunksOf (rows.map mkEntry)).take k).foldl collAdd coll ∧
    (create_vector_database fail rows true).result = .raised ∧
    (create_vector_database fail rows true).coll =
      ((chunksOf (rows.map mkEntry)).take k).foldl collAdd [] := by
  have hrows : ¬ rows.length = 0 := by
    intro h0
    rw [List.eq_nil_of_length_eq_zero h0] at hk
    simp [chunksOf] at hk
  have hpre0 : ∀ j, j < k → fail (0 + j) = false := by
    intro j hj; rw [Nat.zero_add]; exact hpre j hj
  have hfail0 : fail (0 + k) = true := by rw [Nat.zero_add]; exact hfail
  have hupd := runUpdateChunks_fail fail (chunksOf (rows.map mkEntry)) k 0 coll hk hpre0 hfail0
  have hcre := runCreateChunks_fail fail true (((rows.map mkEntry).length + 32 - 1) / 32)
    (chunksOf (rows.map mkEntry)) k 0 [] hk hpre0 hfail0
  refine ⟨?_, ?_, hcre.1, hcre.2⟩
  · rw [update_vector_database]
    simp only [hrows, if_false]
    rw [hupd]
  · rw [update_vector_database]
    simp only [hrows, if_false]
    rw [hupd]

theorem claim9_witness :
    0 < (chunksOf ([row0].map mkEntry)).length ∧
      ((update_vector_database (fun _ => true) (some [row0]) []).2.1 = false ∧
        (update_vector_database (fun _ => true) (some [row0]) []).2.2 =
          ((chunksOf ([row0].map mkEntry)).take 0).foldl collAdd [] ∧
        (create_vector_database (fun _ => true) [row0] true).result = .raised ∧
        (create_vector_database (fun _ => true) [row0] true).coll =
          ((chunksOf ([row0].map mkEntry)).take 0).foldl collAdd []) :=
  ⟨by decide,
    claim9_partial_failure_retention (fun _ => true) [row0] [] 0 (by decide)
      (fun j hj => absurd hj (Nat.not_lt_zero j)) rfl⟩

/-! ## Claim C7 -/

/-- Claim C7: for every indexed record, the stored document text is exactly
`"Subject: {subject}\n\nBody: {body}"` and the stored metadata is the subject
and sender truncated to 100 characters plus the date rendered as a string;
moreover a full build stores exactly one such entry per input row (in order),
and an incremental update appends them to the existing collection, so the
claim holds for both ingestion paths. -/
theorem claim7_stored_document_shape (rows : List Row) (coll : List Entry)
    (h1 : (rows.map Row.id).Nodup)
    (h2 : ((coll ++ rows.map mkEntry).map Entry.id).Nodup) :
    (create_vector_database (fun _ => false) rows true).coll = rows.map mkEntry ∧
    (update_vector_database (fun _ => false) (some rows) coll).2.2 = coll ++ rows.map mkEntry ∧
    (∀ r : Row, (mkEntry r).text =
      "Subject: " ++ r.subject.getD "" ++ "\n\nBody: " ++ r.body.getD "") ∧
    (∀ r : Row, (mkEntry r).meta =
      ⟨(r.subject.getD "").take 100, (r.sender.getD "").take 100, r.date.getD ""⟩) := by
  have hflat : (chunksOf (rows.map mkEntry)).flatten = rows.map mkEntry := chunksOf_join _
  have hnodup1 : (([] ++ (chunksOf (rows.map mkEntry)).flatten).map Entry.id).Nodup := by
    rw [List.nil_append, hflat, map_id_mkEntry]; exact h1
  have hnodup2 : ((coll ++ (chunksOf (rows.map mkEntry)).flatten).map Entry.id).Nodup := by
    rw [hflat]; exact h2
  refine ⟨?_, ?_, fun r => rfl, fun r => rfl⟩
  · show (runCreateChunks (fun _ => false) true _ 0 [] (chunksOf (rows.map mkEntry))).coll = _
    rw [runCreateChunks_nofail]
    show (chunksOf (rows.map mkEntry)).foldl collAdd [] = _
    rw [foldl_collAdd_append _ [] hnodup1, List.nil_append, hflat]
  · by_cases hrows : rows.length = 0
    · rw [List.eq_nil_of_length_eq_zero hrows]
      simp [update_vector_database]
    · simp only [update_vector_database]
      rw [if_neg hrows, runUpdateChunks_nofail]
      show (chunksOf (rows.map mkEntry)).foldl collAdd coll = _
      rw [foldl_collAdd_append _ coll hnodup2, hflat]

theorem claim7_witness :
    (([row0].map Row.id).Nodup ∧ (([] ++ [row0].map mkEntry).map Entry.id).Nodup) ∧
      ((create_vector_database (fun _ => false) [row0] true).coll = [row0].map mkEntry ∧
        (update_vector_database (fun _ => false) (some [row0]) []).2.2 =
          [] ++ [row0].map mkEntry ∧
        (∀ r : Row, (mkEntry r).text =
          "Subject: " ++ r.subject.getD "" ++ "\n\nBody: " ++ r.body.getD "") ∧
        (∀ r : Row, (mkEntry r).meta =
          ⟨(r.subject.getD "").take 100, (r.sender.getD "").take 100, r.date.getD ""⟩)) :=
  ⟨⟨by decide, by decide⟩, claim7_stored_document_shape [row0] [] (by decide) (by decide)⟩

/-! ## Claim C5 -/

theorem flatMap_enumFrom_snd {β : Type _} (g : List Entry → List β) :
    ∀ (cs : List (List Entry)) (n : Nat),
    (List.enumFrom n cs).flatMap (fun p => g p.2) = cs.flatMap g := by
  intro cs
  induction cs with
  | nil => intro n; rfl
  | cons c cs ih => intro n; simp only [List.enumFrom_cons, List.flatMap_cons, ih (n + 1)]

/-- Claim C5 (amended): full-build ingestion partitions the prepared records
into consecutive non-empty chunks of at most 32 records whose concatenation
equals the input, and, when a progress bar is provided, it reports progress
immediately BEFORE each chunk — an initial report of 0, then
`batch_num/total_batches` (1-based `batch_num`) at the start of each chunk —
so no report follows the final chunk; with no progress bar nothing is
reported. -/
theorem claim5_amended_partition_progress (rows : List Row) :
    (chunksOf (rows.map mkEntry)).flatten = rows.map mkEntry ∧
    (chunksOf (rows.map mkEntry)).all
      (fun c => decide (c.length ≤ 32) && !c.isEmpty) = true ∧
    (create_vector_database (fun _ => false) rows true).events =
      Ev.progress 0 ((rows.length + 32 - 1) / 32) ::
        (chunksOf (rows.map mkEntry)).enum.flatMap (fun p =>
          [Ev.progress (p.1 + 1) ((rows.length + 32 - 1) / 32),
            Ev.encode (p.2.map Entry.text), Ev.add (p.2.map Entry.id)]) ∧
    (create_vector_database (fun _ => false) rows false).events =
      (chunksOf (rows.map mkEntry)).flatMap (fun c =>
        [Ev.encode (c.map Entry.text), Ev.add (c.map Entry.id)]) := by
  refine ⟨chunksOf_join _, ?_, ?_, ?_⟩
  · rw [List.all_eq_true]
    intro c hc
    obtain ⟨hle, hne⟩ := chunksOf_mem _ c hc
    simp [hle, List.isEmpty_iff, hne]
  · simp only [create_vector_database]
    rw [runCreateChunks_nofail]
    simp [List.enum, List.length_map]
  · simp only [create_vector_database]
    rw [runCreateChunks_nofail]
    simp [flatMap_enumFrom_snd (fun c => [Ev.encode (c.map Entry.text), Ev.add (c.map Entry.id)])]

/-- Claim C5 counterexample: with a one-row corpus and a progress bar the
trace is `[progress 0/1, progress 1/1, encode, add]` — the final event is the
chunk commit itself, so no progress report is issued after the (only, hence
not after every) chunk; the code reports before each chunk, not after. -/
theorem claim5_counterexample :
    (create_vector_database (fun _ => false) [row0] true).events =
      [Ev.progress 0 1, Ev.progress 1 1, Ev.encode [(mkEntry row0).text],
        Ev.add ["a"]] ∧
    reportsAfterEveryAdd (create_vector_database (fun _ => false) [row0] true).events = false :=
  ⟨by decide, by decide⟩

/-! ## Claim C2 -/

/-- A row with id `"a"` and body `v1`. -/
def rowV1 : Row := ⟨"a", some "invoice", some "alice", some "v1", some "2024-01-01"⟩

/-- The same id `"a"` fetched again with a changed body `v2`. -/
def rowV2 : Row := ⟨"a", some "invoice", some "alice", some "v2", some "2024-01-01"⟩

/-- Claim C2 (code bug): the incremental update calls `collection.add`, which
never overwrites an existing id.  With the collection already holding id
`"a"` (body `v1`), re-ingesting id `"a"` with body `v2` leaves the stored
entry unchanged even though the prepared document text differs, and the call
even reports success under the modelled skip behaviour (current ChromaDB
versions instead raise `DuplicateIDError`, making the update return failure —
in neither case is the entry overwritten, as upsert semantics would require).
Re-ingesting an identical batch leaves the state unchanged only because the
duplicate insert is a no-op, not because it overwrites. -/
theorem claim2_add_does_not_overwrite :
    (update_vector_database (fun _ => false) (some [rowV2]) [mkEntry rowV1]).2.2 =
      [mkEntry rowV1] ∧
    (update_vector_database (fun _ => false) (some [rowV2]) [mkEntry rowV1]).2.1 = true ∧
    (mkEntry rowV2).text ≠ (mkEntry rowV1).text ∧
    (update_vector_database (fun _ => false) (some [rowV1]) [mkEntry rowV1]).2.2 =
      [mkEntry rowV1] :=
  ⟨by decide, by decide, by decide, by decide⟩

/-! ## Claim C8 -/

theorem mem_ddkl : ∀ (l : List Row) (x : Row), x ∈ drop_duplicates_keep_last l → x ∈ l := by
  intro l
  induction l with
  | nil => intro x hx; exact absurd hx (by simp [drop_duplicates_keep_last])
  | cons r rs ih =>
    intro x hx
    rw [drop_duplicates_keep_last] at hx
    by_cases hdup : rs.any (fun y => y.id == r.id) = true
    · rw [if_pos hdup] at hx
      exact List.mem_cons_of_mem r (ih x hx)
    · rw [if_neg hdup] at hx
      rcases List.mem_cons.mp hx with hx1 | hx1
      · exact hx1 ▸ List.mem_cons_self r rs
      · exact List.mem_cons_of_mem r (ih x hx1)

theorem getLast?_cons_ne (a : α) (l : List α) (h : l ≠ []) :
    (a :: l).getLast? = l.getLast? := by
  obtain ⟨x, hx⟩ := Option.isSome_iff_exists.mp (List.getLast?_isSome.mpr h)
  rw [show a :: l = [a] ++ l from rfl, List.getLast?_append, hx]
  rfl

theorem find?_ddkl : ∀ (l : List Row) (i : String),
    (drop_duplicates_keep_last l).find? (fun r => r.id == i) =
      (l.filter (fun r => r.id == i)).getLast? := by
  intro l
  induction l with
  | nil => intro i; rfl
  | cons r rs ih =>
    intro i
    rw [drop_duplicates_keep_last]
    by_cases hdup : rs.any (fun y => y.id == r.id) = true
    · rw [if_pos hdup, ih i, List.filter_cons]
      by_cases hri : (r.id == i) = true
      · rw [if_pos hri]
        have hri' : r.id = i := by simpa using hri
        obtain ⟨x, hx, hxr⟩ := List.any_eq_true.mp hdup
        have hxr' : x.id = r.id := by simpa using hxr
        have hxf : x ∈ rs.filter (fun y => y.id == i) :=
          List.mem_filter.mpr ⟨hx, by simp [hxr', hri']⟩
        rw [getLast?_cons_ne r _ (List.ne_nil_of_mem hxf)]
      · rw [if_neg hri]
    · rw [if_neg hdup, List.find?_cons, List.filter_cons]
      by_cases hri : (r.id == i) = true
      · have hri' : r.id = i := by simpa using hri
        have hfil : rs.filter (fun y => y.id == i) = [] := by
          rw [List.filter_eq_nil_iff]
          intro x hx hxi
          have hxi' : x.id = i := by simpa using hxi
          have : rs.any (fun y => y.id == r.id) = true :=
            List.any_eq_true.mpr ⟨x, hx, by simp [hxi', hri']⟩
          exact hdup this
        rw [hri, hfil]
        simp
      · have hri0 : (r.id == i) = false := by
          cases h0 : (r.id == i) with
          | false => rfl
          | true => exact absurd h0 hri
        rw [hri0]
        simp only [Bool.false_eq_true, if_false]
        exact ih i

theorem nodup_ddkl : ∀ (l : List Row), ((drop_duplicates_keep_last l).map Row.id).Nodup := by
  intro l
  induction l with
  | nil => simp [drop_duplicates_keep_last]
  | cons r rs ih =>
    rw [drop_duplicates_keep_last]
    by_cases hdup : rs.any (fun y => y.id == r.id) = true
    · rw [if_pos hdup]; exact ih
    · rw [if_neg hdup, List.map_cons, List.nodup_cons]
      refine ⟨?_, ih⟩
      intro hmem
      obtain ⟨x, hx, hxr⟩ := List.mem_map.mp hmem
      have hxrs : x ∈ rs := mem_ddkl rs x hx
      exact hdup (List.any_eq_true.mpr ⟨x, hxrs, by simp [hxr]⟩)

/-- Claim C8: merging a previously held corpus with a newly fetched batch
deduplicates by id — the merged corpus has pairwise-distinct ids — and for
every id present in the new batch the surviving row is the last row of the
new batch with that id (last-write-wins, regardless of the rows' positions
within each batch). -/
theorem claim8_merge_last_write_wins (old new : List Row) (i : String)
    (h : new.any (fun r => r.id == i) = true) :
    (mergeCorpora old new).find? (fun r => r.id == i) =
      (new.filter (fun r => r.id == i)).getLast? ∧
    ((mergeCorpora old new).map Row.id).Nodup := by
  refine ⟨?_, nodup_ddkl _⟩
  rw [mergeCorpora, find?_ddkl, List.filter_append]
  obtain ⟨x, hx, hxi⟩ := List.any_eq_true.mp h
  have hne : new.filter (fun r => r.id == i) ≠ [] :=
    List.ne_nil_of_mem (List.mem_filter.mpr ⟨hx, hxi⟩)
  obtain ⟨y, hy⟩ := Option.isSome_iff_exists.mp (List.getLast?_isSome.mpr hne)
  rw [List.getLast?_append, hy]
  rfl

/-- A second fresh row, id `"b"`. -/
def rowB : Row := ⟨"b", some "memo", some "bob", some "note", some "2024-02-02"⟩

theorem claim8_witness :
    ([rowV2, rowB].any (fun r => r.id == "a") = true) ∧
      ((mergeCorpora [rowV1] [rowV2, rowB]).find? (fun r => r.id == "a") =
          ([rowV2, rowB].filter (fun r => r.id == "a")).getLast? ∧
        ((mergeCorpora [rowV1] [rowV2, rowB]).map Row.id).Nodup) :=
  ⟨by decide, claim8_merge_last_write_wins [rowV1] [rowV2, rowB] "a" (by decide)⟩

/-! ## Claim C3 -/

/-- Claim C3: asking a question when the client has no `email_collection`
fails fast — `client.get_collection` raises before the question is embedded
or the completion service is contacted, for every ranking and every service
outcome — with the distinct, collection-naming condition "Collection
email_collection does not exist."; this is never conflated with a query that
matches no documents, which succeeds and returns an answer with an empty
sources list rather than an error. -/
theorem claim3_not_initialized_distinct (q : String) (score : String → Entry → Int)
    (llm : String → LlmOutcome) (c : String) :
    ask_question_with_groq q score none llm =
      .error "Collection email_collection does not exist." ∧
    ask_question_with_groq q score (some []) (fun _ => .ok c) =
      .ok { answer := c, sources := [] } ∧
    (∀ r : QaResponse,
      (Except.error "Collection email_collection does not exist." :
        Except String QaResponse) ≠ .ok r) :=
  ⟨rfl, rfl, fun _ h => Except.noConfusion h⟩

/-! ## Claim C6 -/

/-- Claim C6: for every question, collection and ranking, the answer
operation retrieves exactly the top 8 documents of the ranking (all of them
when fewer than 8 exist), assembles the context by rendering each retrieved
document, in ranked order, as `Email i` with its From/Date/Subject metadata
followed by the document text, joined by the visible separator `\n\n---\n\n`,
passes that context to the completion service inside the prompt, and returns
sources in the same ranked order. -/
theorem claim6_top8_ranked_context (q : String) (score : String → Entry → Int)
    (entries : List Entry) (llm : String → LlmOutcome) :
    retrievedFor score q entries = (rankEntries score q entries).take 8 ∧
    (retrievedFor score q entries).length = min 8 (rankEntries score q entries).length ∧
    contextFor (retrievedFor score q entries) =
      String.intercalate "\n\n---\n\n"
        ((retrievedFor score q entries).enum.map (fun p =>
          "Email " ++ toString (p.1 + 1) ++ ":\nFrom: " ++ p.2.meta.sender ++
            "\nDate: " ++ p.2.meta.date ++ "\nSubject: " ++ p.2.meta.subject ++
            "\n\n" ++ p.2.text)) ∧
    ask_question_with_groq q score (some entries) llm =
      (match llm (groqPrompt q (contextFor (retrievedFor score q entries))) with
        | .ok content =>
          .ok { answer := content
                sources := (retrievedFor score q entries).map
                  (fun e => { metadata := e.meta, excerpt := e.text.take 200 ++ "..." }) }
        | .badStatus code text =>
          .ok { answer := "Error with Groq API: " ++ toString code ++ " - " ++ text
                sources := (retrievedFor score q entries).map
                  (fun e => { metadata := e.meta, excerpt := e.text.take 200 ++ "..." }) }
        | .raise msg =>
          match (retrievedFor score q entries).map Entry.text with
          | [] => .error "list index out of range"
          | d :: _ =>
            .ok { answer := "Error generating answer: " ++ msg ++
                    "\n\nHere\x27s the most relevant email content for your question:\n\n" ++ d
                  sources := (retrievedFor score q entries).map
                    (fun e => { metadata := e.meta, excerpt := e.text.take 200 ++ "..." }) }) := by
  refine ⟨rfl, List.length_take 8 _, rfl, ?_⟩
  simp only [ask_question_with_groq]
  cases hllm : llm (groqPrompt q (contextFor (retrievedFor score q entries))) with
  | ok content => rfl
  | badStatus code text => rfl
  | raise msg =>
    cases hd : (retrievedFor score q entries).map Entry.text with
    | nil => simp [hd, Except.map]
    | cons d ds => simp [hd, Except.map]

/-! ## Claim C1 -/

/-- Claim C1 counterexample: with exactly one retrieved document and the
completion service answering HTTP 500, the returned answer is the bare
status-error string; neither the top-ranked document text nor its 200-chars
excerpt occurs in it, refuting "includes the single top-ranked retrieved
excerpt" for the non-2xx failure mode (the code attaches the excerpt only on
the exception path). -/
theorem claim1_counterexample :
    (ask_question_with_groq "q" (fun _ _ => 0) (some [mkEntry row0])
        (fun _ => .badStatus 500 "Internal Server Error")).map QaResponse.answer =
      .ok "Error with Groq API: 500 - Internal Server Error" ∧
    ¬ ((mkEntry row0).text.data <:+:
        ("Error with Groq API: 500 - Internal Server Error").data) ∧
    ¬ (((mkEntry row0).text.take 200 ++ "...").data <:+:
        ("Error with Groq API: 500 - Internal Server Error").data) :=
  ⟨rfl, by decide, by decide⟩

/-- Claim C1 (amended): whenever retrieval returned at least one document and
the LLM call fails, `ask_question_with_groq` does not raise to the caller and
returns a non-empty sources list covering every retrieved document in ranked
order; if the failure raises inside the `try` (network error, or a 200
response whose body fails to parse) the answer states the error and embeds
the top-ranked document text as fallback, but if the service merely returns a
non-200 status, the answer states the error with the status code and response
body and contains no excerpt fallback. -/
theorem claim1_degraded_answer (q : String) (score : String → Entry → Int)
    (entries : List Entry) (e : Entry) (tl : List Entry) (code : Nat)
    (txt msg : String)
    (h : retrievedFor score q entries = e :: tl) :
    (ask_question_with_groq q score (some entries) (fun _ => .badStatus code txt) =
      .ok { answer := "Error with Groq API: " ++ toString code ++ " - " ++ txt
            sources := (e :: tl).map
              (fun d => { metadata := d.meta, excerpt := d.text.take 200 ++ "..." }) }) ∧
    (ask_question_with_groq q score (some entries) (fun _ => .raise msg) =
      .ok { answer := "Error generating answer: " ++ msg ++
              "\n\nHere\x27s the most relevant email content for your question:\n\n" ++ e.text
            sources := (e :: tl).map
              (fun d => { metadata := d.meta, excerpt := d.text.take 200 ++ "..." }) }) ∧
    (e.text.data <:+:
      ("Error generating answer: " ++ msg ++
        "\n\nHere\x27s the most relevant email content for your question:\n\n" ++ e.text).data) ∧
    ("Error with Groq API: " ++ toString code ++ " - " ++ txt) ≠ "" ∧
    (e :: tl).map
      (fun d => ({ metadata := d.meta, excerpt := d.text.take 200 ++ "..." } : QaSource)) ≠ [] := by
  refine ⟨?_, ?_, ?_, ?_, by simp⟩
  · simp only [ask_question_with_groq, h]
    rfl
  · simp only [ask_question_with_groq, h]
    rfl
  · refine ⟨("Error generating answer: " ++ msg ++
      "\n\nHere\x27s the most relevant email content for your question:\n\n").data, [], ?_⟩
    simp [String.data_append]
  · intro heq
    have hlen := congrArg String.length heq
    rw [String.length_append, String.length_append, String.length_append] at hlen
    have h1 : ("Error with Groq API: " : String).length = 21 := by decide
    have h2 : (" - " : String).length = 3 := by decide
    have h3 : ("" : String).length = 0 := by decide
    omega

theorem claim1_witness :
    retrievedFor (fun _ _ => 0) "q" [mkEntry row0] = mkEntry row0 :: [] ∧
      ((ask_question_with_groq "q" (fun _ _ => 0) (some [mkEntry row0])
          (fun _ => .badStatus 500 "boom") =
        .ok { answer := "Error with Groq API: " ++ toString 500 ++ " - " ++ "boom"
              sources := (mkEntry row0 :: []).map
                (fun d => { metadata := d.meta, excerpt := d.text.take 200 ++ "..." }) }) ∧
      (ask_question_with_groq "q" (fun _ _ => 0) (some [mkEntry row0])
          (fun _ => .raise "down") =
        .ok { answer := "Error generating answer: " ++ "down" ++
                "\n\nHere\x27s the most relevant email content for your question:\n\n" ++
                  (mkEntry row0).text
              sources := (mkEntry row0 :: []).map
                (fun d => { metadata := d.meta, excerpt := d.text.take 200 ++ "..." }) }) ∧
      ((mkEntry row0).text.data <:+:
        ("Error generating answer: " ++ "down" ++
          "\n\nHere\x27s the most relevant email content for your question:\n\n" ++
            (mkEntry row0).text).data) ∧
      ("Error with Groq API: " ++ toString 500 ++ " - " ++ "boom") ≠ "" ∧
      (mkEntry row0 :: []).map
        (fun d => ({ metadata := d.meta, excerpt := d.text.take 200 ++ "..." } : QaSource)) ≠ []) :=
  ⟨rfl, claim1_degraded_answer "q" (fun _ _ => 0) [mkEntry row0] (mkEntry row0) [] 500
    "boom" "down" rfl⟩

/-! ## Claim C4: lemmas about `Char.toLower` (ASCII lowercasing) -/

theorem char_toNat_ofNat (n : Nat) (h : n < 55296) : (Char.ofNat n).toNat = n := by
  rw [Char.ofNat, dif_pos (Or.inl h)]
  rfl

theorem toLower_eq_self_of_not_upper (c : Char)
    (h : ¬(65 ≤ c.toNat ∧ c.toNat ≤ 90)) : Char.toLower c = c := by
  rw [Char.toLower]
  exact if_neg h

theorem toLower_toNat_not_upper (c : Char) :
    ¬(65 ≤ (Char.toLower c).toNat ∧ (Char.toLower c).toNat ≤ 90) := by
  rw [Char.toLower]
  by_cases h : c.toNat ≥ 65 ∧ c.toNat ≤ 90
  · rw [if_pos h]
    have hv : (Char.ofNat (c.toNat + 32)).toNat = c.toNat + 32 :=
      char_toNat_ofNat _ (by omega)
    rw [hv]
    omega
  · rw [if_neg h]
    exact h

theorem toLower_idem (c : Char) : (Char.toLower c).toLower = Char.toLower c :=
  toLower_eq_self_of_not_upper _ (toLower_toNat_not_upper c)

/-! ## Claim C4: characters of the scanners' outputs -/

theorem mem_subHttpAux : ∀ (l : List Char) (b : Bool) (c : Char),
    c ∈ subHttpAux b l → c ∈ l := by
  intro l
  induction l with
  | nil => intro b c hc; cases b <;> simp [subHttpAux] at hc
  | cons x xs ih =>
    intro b c hc
    cases b with
    | true =>
      rw [subHttpAux] at hc
      by_cases hs : pyIsSpace x = true
      · rw [if_pos hs] at hc
        rcases List.mem_cons.mp hc with hc1 | hc1
        · exact hc1 ▸ List.mem_cons_self x xs
        · exact List.mem_cons_of_mem x (ih false c hc1)
      · rw [if_neg hs] at hc
        exact List.mem_cons_of_mem x (ih true c hc)
    | false =>
      rw [subHttpAux] at hc
      by_cases hu : isUrlStart (x :: xs) = true
      · rw [if_pos hu] at hc
        exact List.mem_cons_of_mem x (ih true c hc)
      · rw [if_neg hu] at hc
        rcases List.mem_cons.mp hc with hc1 | hc1
        · exact hc1 ▸ List.mem_cons_self x xs
        · exact List.mem_cons_of_mem x (ih false c hc1)

theorem mem_subEmailAux : ∀ (l : List Char) (b : Bool) (c : Char),
    c ∈ subEmailAux b l → c ∈ l := by
  intro l
  induction l with
  | nil => intro b c hc; cases b <;> simp [subEmailAux] at hc
  | cons x xs ih =>
    intro b c hc
    cases b with
    | true =>
      rw [subEmailAux] at hc
      by_cases hs : pyIsSpace x = true
      · rw [if_pos hs] at hc
        exact List.mem_cons_of_mem x (ih false c hc)
      · rw [if_neg hs] at hc
        exact List.mem_cons_of_mem x (ih true c hc)
    | false =>
      rw [subEmailAux] at hc
      by_cases hs : pyIsSpace x = true
      · rw [if_pos hs] at hc
        rcases List.mem_cons.mp hc with hc1 | hc1
        · exact hc1 ▸ List.mem_cons_self x xs
        · exact List.mem_cons_of_mem x (ih false c hc1)
      · rw [if_neg hs] at hc
        by_cases hat : '@' ∈ (x :: xs).takeWhile (fun y => !pyIsSpace y)
        · rw [if_pos hat] at hc
          exact List.mem_cons_of_mem x (ih true c hc)
        · rw [if_neg hat] at hc
          rcases List.mem_cons.mp hc with hc1 | hc1
          · exact hc1 ▸ List.mem_cons_self x xs
          · exact List.mem_cons_of_mem x (ih false c hc1)

theorem mem_collapseWsAux : ∀ (l : List Char) (b : Bool) (c : Char),
    c ∈ collapseWsAux b l → c = ' ' ∨ (c ∈ l ∧ pyIsSpace c = false) := by
  intro l
  induction l with
  | nil => intro b c hc; cases b <;> simp [collapseWsAux] at hc
  | cons x xs ih =>
    intro b c hc
    have step : ∀ b', c ∈ collapseWsAux b' xs →
        c = ' ' ∨ (c ∈ x :: xs ∧ pyIsSpace c = false) := by
      intro b' hc'
      rcases ih b' c hc' with h1 | ⟨h1, h2⟩
      · exact Or.inl h1
      · exact Or.inr ⟨List.mem_cons_of_mem x h1, h2⟩
    cases b with
    | true =>
      rw [collapseWsAux] at hc
      by_cases hs : pyIsSpace x = true
      · rw [if_pos hs] at hc
        exact step true hc
      · rw [if_neg hs] at hc
        rcases List.mem_cons.mp hc with hc1 | hc1
        · refine Or.inr ⟨List.mem_cons.mpr (Or.inl hc1), ?_⟩
          rw [hc1]
          cases h0 : pyIsSpace x with
          | false => rfl
          | true => exact absurd h0 hs
        · exact step false hc1
    | false =>
      rw [collapseWsAux] at hc
      by_cases hs : pyIsSpace x = true
      · rw [if_pos hs] at hc
        rcases List.mem_cons.mp hc with hc1 | hc1
        · exact Or.inl hc1
        · exact step true hc1
      · rw [if_neg hs] at hc
        rcases List.mem_cons.mp hc with hc1 | hc1
        · refine Or.inr ⟨List.mem_cons.mpr (Or.inl hc1), ?_⟩
          rw [hc1]
          cases h0 : pyIsSpace x with
          | false => rfl
          | true => exact absurd h0 hs
        · exact step false hc1

theorem mem_stripEnd : ∀ (l : List Char) (c : Char), c ∈ stripEnd l → c ∈ l := by
  intro l
  induction l with
  | nil => intro c hc; simp [stripEnd] at hc
  | cons x xs ih =>
    intro c hc
    rw [stripEnd] at hc
    by_cases hcond : pyIsSpace x = true ∧ stripEnd xs = []
    · rw [if_pos hcond] at hc
      exact absurd hc (List.not_mem_nil c)
    · rw [if_neg hcond] at hc
      rcases List.mem_cons.mp hc with hc1 | hc1
      · exact hc1 ▸ List.mem_cons_self x xs
      · exact List.mem_cons_of_mem x (ih c hc1)

theorem mem_stripWs (l : List Char) (c : Char) (hc : c ∈ stripWs l) : c ∈ l :=
  (List.dropWhile_sublist pyIsSpace).subset (mem_stripEnd _ c hc)

/-! ## Claim C4: whitespace-shape invariants -/

/-- No two adjacent whitespace characters. -/
def NoAdjSpace (l : List Char) : Prop :=
  l.Chain' (fun a b => ¬(pyIsSpace a = true ∧ pyIsSpace b = true))

theorem head?_dropWhile_false (p : Char → Bool) :
    ∀ (l : List Char) (c : Char), (l.dropWhile p).head? = some c → p c = false := by
  intro l
  induction l with
  | nil => intro c hc; simp at hc
  | cons x xs ih =>
    intro c hc
    by_cases hx : p x = true
    · rw [List.dropWhile_cons_of_pos hx] at hc
      exact ih c hc
    · rw [List.dropWhile_cons_of_neg hx] at hc
      have : x = c := by simpa using hc
      subst this
      cases h0 : p x with
      | false => rfl
      | true => exact absurd h0 hx

theorem dropWhile_eq_self_of_head (p : Char → Bool) (l : List Char)
    (h : ∀ c, l.head? = some c → p c = false) : l.dropWhile p = l := by
  cases l with
  | nil => rfl
  | cons x xs =>
    have hx : p x = false := h x rfl
    rw [List.dropWhile_cons_of_neg (by simp [hx])]

theorem head?_collapseWsAux_true :
    ∀ (l : List Char) (c : Char), (collapseWsAux true l).head? = some c →
      pyIsSpace c = false := by
  intro l
  induction l with
  | nil => intro c hc; simp [collapseWsAux] at hc
  | cons x xs ih =>
    intro c hc
    rw [collapseWsAux] at hc
    by_cases hs : pyIsSpace x = true
    · rw [if_pos hs] at hc
      exact ih c hc
    · rw [if_neg hs] at hc
      have : x = c := by simpa using hc
      subst this
      cases h0 : pyIsSpace x with
      | false => rfl
      | true => exact absurd h0 hs

theorem noAdj_collapseWsAux : ∀ (l : List Char) (b : Bool),
    NoAdjSpace (collapseWsAux b l) := by
  intro l
  induction l with
  | nil => intro b; cases b <;> exact List.chain'_nil
  | cons x xs ih =>
    intro b
    have hcons_nonspace : pyIsSpace x = false → NoAdjSpace (x :: collapseWsAux false xs) := by
      intro hx
      rw [NoAdjSpace, List.chain'_cons']
      exact ⟨fun y _ hp => by rw [hx] at hp; exact Bool.false_ne_true hp.1, ih false⟩
    cases b with
    | true =>
      rw [collapseWsAux]
      by_cases hs : pyIsSpace x = true
      · rw [if_pos hs]; exact ih true
      · rw [if_neg hs]
        exact hcons_nonspace (by cases h0 : pyIsSpace x with
          | false => rfl
          | true => exact absurd h0 hs)
    | false =>
      rw [collapseWsAux]
      by_cases hs : pyIsSpace x = true
      · rw [if_pos hs]
        rw [NoAdjSpace, List.chain'_cons']
        refine ⟨fun y hy hp => ?_, ih true⟩
        have := head?_collapseWsAux_true xs y hy
        rw [this] at hp
        exact Bool.false_ne_true hp.2
      · rw [if_neg hs]
        exact hcons_nonspace (by cases h0 : pyIsSpace x with
          | false => rfl
          | true => exact absurd h0 hs)

theorem blank_collapseWsAux (l : List Char) (b : Bool) (c : Char)
    (hc : c ∈ collapseWsAux b l) (hs : pyIsSpace c = true) : c = ' ' := by
  rcases mem_collapseWsAux l b c hc with h1 | ⟨_, h2⟩
  · exact h1
  · rw [hs] at h2; exact absurd h2 (by simp)

theorem noAdj_dropWhile (p : Char → Bool) :
    ∀ (l : List Char), NoAdjSpace l → NoAdjSpace (l.dropWhile p) := by
  intro l
  induction l with
  | nil => intro h; exact h
  | cons x xs ih =>
    intro h
    by_cases hx : p x = true
    · rw [List.dropWhile_cons_of_pos hx]
      exact ih (List.Chain'.tail h)
    · rw [List.dropWhile_cons_of_neg hx]
      exact h

theorem head?_stripEnd : ∀ (l : List Char) (c : Char),
    (stripEnd l).head? = some c → l.head? = some c := by
  intro l
  induction l with
  | nil => intro c hc; simp [stripEnd] at hc
  | cons x xs _ =>
    intro c hc
    rw [stripEnd] at hc
    by_cases hcond : pyIsSpace x = true ∧ stripEnd xs = []
    · rw [if_pos hcond] at hc
      simp at hc
    · rw [if_neg hcond] at hc
      simpa using hc

theorem getLast?_stripEnd_nonspace : ∀ (l : List Char) (c : Char),
    (stripEnd l).getLast? = some c → pyIsSpace c = false := by
  intro l
  induction l with
  | nil => intro c hc; simp [stripEnd] at hc
  | cons x xs ih =>
    intro c hc
    rw [stripEnd] at hc
    by_cases hcond : pyIsSpace x = true ∧ stripEnd xs = []
    · rw [if_pos hcond] at hc
      simp at hc
    · rw [if_neg hcond] at hc
      by_cases hnil : stripEnd xs = []
      · rw [hnil] at hc
        have hx : x = c := by simpa using hc
        subst hx
        cases h0 : pyIsSpace x with
        | false => rfl
        | true => exact absurd ⟨h0, hnil⟩ hcond
      · rw [getLast?_cons_ne x _ hnil] at hc
        exact ih c hc

theorem noAdj_stripEnd : ∀ (l : List Char), NoAdjSpace l → NoAdjSpace (stripEnd l) := by
  intro l
  induction l with
  | nil => intro h; exact h
  | cons x xs ih =>
    intro h
    rw [stripEnd]
    by_cases hcond : pyIsSpace x = true ∧ stripEnd xs = []
    · rw [if_pos hcond]; exact List.chain'_nil
    · rw [if_neg hcond]
      rw [NoAdjSpace, List.chain'_cons']
      obtain ⟨hhead, htail⟩ := (List.chain'_cons').mp h
      refine ⟨fun y hy => hhead y (head?_stripEnd xs y hy), ih htail⟩

/-! ## Claim C4: the second pass is the identity on cleaned output -/

theorem map_eq_self_of_forall {f : Char → Char} :
    ∀ (l : List Char), (∀ c ∈ l, f c = c) → l.map f = l := by
  intro l
  induction l with
  | nil => intro _; rfl
  | cons x xs ih =>
    intro h
    rw [List.map_cons, h x (List.mem_cons_self x xs),
      ih (fun c hc => h c (List.mem_cons_of_mem x hc))]

theorem subHttpAux_id : ∀ (l : List Char),
    l.tails.any isUrlStart = false → subHttpAux false l = l := by
  intro l
  induction l with
  | nil => intro _; rfl
  | cons x xs ih =>
    intro h
    rw [List.tails_cons, List.any_cons, Bool.or_eq_false_iff] at h
    rw [subHttpAux, if_neg (by simp [h.1]), ih h.2]

theorem subEmailAux_id : ∀ (l : List Char),
    '@' ∉ l → subEmailAux false l = l := by
  intro l
  induction l with
  | nil => intro _; rfl
  | cons x xs ih =>
    intro h
    have hxs : '@' ∉ xs := fun hmem => h (List.mem_cons_of_mem x hmem)
    rw [subEmailAux]
    by_cases hs : pyIsSpace x = true
    · rw [if_pos hs, ih hxs]
    · rw [if_neg hs]
      have hat : '@' ∉ (x :: xs).takeWhile (fun y => !pyIsSpace y) :=
        fun hmem => h ((List.takeWhile_sublist _).subset hmem)
      rw [if_neg hat, ih hxs]

theorem collapseWsAux_true_eq_false (l : List Char)
    (h : ∀ c, l.head? = some c → pyIsSpace c = false) :
    collapseWsAux true l = collapseWsAux false l := by
  cases l with
  | nil => rfl
  | cons x xs =>
    have hx : pyIsSpace x = false := h x rfl
    rw [collapseWsAux, collapseWsAux, if_neg (by simp [hx]), if_neg (by simp [hx])]

theorem collapseWsAux_id : ∀ (l : List Char), NoAdjSpace l →
    (∀ c ∈ l, pyIsSpace c = true → c = ' ') → collapseWsAux false l = l := by
  intro l
  induction l with
  | nil => intro _ _; rfl
  | cons x xs ih =>
    intro hadj hbl
    obtain ⟨hhead, htail⟩ := List.chain'_cons'.mp hadj
    by_cases hs : pyIsSpace x = true
    · have hx : x = ' ' := hbl x (List.mem_cons_self x xs) hs
      have hxs_head : ∀ c, xs.head? = some c → pyIsSpace c = false := by
        intro c hc
        cases h0 : pyIsSpace c with
        | false => rfl
        | true => exact absurd ⟨hs, h0⟩ (hhead c hc)
      rw [collapseWsAux, if_pos hs, collapseWsAux_true_eq_false xs hxs_head,
        ih htail (fun c hc hcs => hbl c (List.mem_cons_of_mem x hc) hcs), hx]
    · rw [collapseWsAux, if_neg hs,
        ih htail (fun c hc hcs => hbl c (List.mem_cons_of_mem x hc) hcs)]

theorem stripEnd_id : ∀ (l : List Char),
    (∀ c, l.getLast? = some c → pyIsSpace c = false) → stripEnd l = l := by
  intro l
  induction l with
  | nil => intro _; rfl
  | cons x xs ih =>
    intro h
    by_cases hnil : xs = []
    · subst hnil
      have hx : pyIsSpace x = false := h x rfl
      rw [stripEnd, if_neg (by simp [hx])]
      rfl
    · have hlast : ∀ c, xs.getLast? = some c → pyIsSpace c = false := by
        intro c hc
        exact h c (by rw [getLast?_cons_ne x xs hnil]; exact hc)
      have hxs : stripEnd xs = xs := ih hlast
      rw [stripEnd, hxs, if_neg (fun hcond => hnil hcond.2)]

theorem stripWs_id (l : List Char)
    (hhd : ∀ c, l.head? = some c → pyIsSpace c = false)
    (hlt : ∀ c, l.getLast? = some c → pyIsSpace c = false) : stripWs l = l := by
  rw [stripWs, dropWhile_eq_self_of_head pyIsSpace l hhd, stripEnd_id l hlt]

/-- Shape of the pipeline's output: every character is a space (and then the
space character itself) or a lowercase-stable non-digit word character; no
two adjacent whitespace characters; no leading or trailing whitespace. -/
theorem cleanPipeline_facts (s : List Char) :
    (∀ c ∈ cleanPipeline s,
      c = ' ' ∨ (pyIsWord c = true ∧ c.isDigit = false ∧ pyIsSpace c = false ∧
        Char.toLower c = c)) ∧
    NoAdjSpace (cleanPipeline s) ∧
    (∀ c, (cleanPipeline s).head? = some c → pyIsSpace c = false) ∧
    (∀ c, (cleanPipeline s).getLast? = some c → pyIsSpace c = false) := by
  refine ⟨?_, ?_, ?_, ?_⟩
  · intro c hc
    have hc4 : c ∈ collapseWsAux false
        (removeDigits (toSpaceNonWord (subEmailAux false (subHttpAux false
          (s.map Char.toLower))))) :=
      (List.dropWhile_sublist pyIsSpace).subset (mem_stripEnd _ c hc)
    rcases mem_collapseWsAux _ false c hc4 with h1 | ⟨h1, hns⟩
    · exact Or.inl h1
    · right
      obtain ⟨hmem, hnd⟩ := List.mem_filter.mp h1
      obtain ⟨c0, hc0, hfc0⟩ := List.mem_map.mp hmem
      by_cases hcase : (pyIsWord c0 || pyIsSpace c0) = true
      · rw [if_pos hcase] at hfc0
        have hns0 : pyIsSpace c0 = false := by rw [hfc0]; exact hns
        have hword : pyIsWord c0 = true := by
          rcases Bool.or_eq_true_iff.mp hcase with hw | hsp
          · exact hw
          · rw [hsp] at hns0; exact absurd hns0 (by simp)
        have hnd0 : c0.isDigit = false := by
          rw [hfc0]
          cases h0 : c.isDigit with
          | false => rfl
          | true => rw [h0] at hnd; exact absurd hnd (by simp)
        have hcM0 : c0 ∈ s.map Char.toLower :=
          mem_subHttpAux _ false c0 (mem_subEmailAux _ false c0 hc0)
        obtain ⟨d, _, hd⟩ := List.mem_map.mp hcM0
        have hlow : Char.toLower c0 = c0 := by rw [← hd]; exact toLower_idem d
        rw [← hfc0]
        exact ⟨hword, hnd0, hns0, hlow⟩
      · rw [if_neg hcase] at hfc0
        rw [← hfc0] at hns
        exact absurd hns (by simp [pyIsSpace])
  · exact noAdj_stripEnd _ (noAdj_dropWhile _ _ (noAdj_collapseWsAux _ false))
  · intro c hc
    exact head?_dropWhile_false pyIsSpace _ c (head?_stripEnd _ c hc)
  · intro c hc
    exact getLast?_stripEnd_nonspace _ c hc

theorem cleanPipeline_idem (s : List Char)
    (hurl : (cleanPipeline s).tails.any isUrlStart = false) :
    cleanPipeline (cleanPipeline s) = cleanPipeline s := by
  obtain ⟨hchars, hadj, hhead, hlast⟩ := cleanPipeline_facts s
  have hblank : ∀ c ∈ cleanPipeline s, pyIsSpace c = true → c = ' ' := by
    intro c hc hs
    rcases hchars c hc with h1 | ⟨_, _, h3, _⟩
    · exact h1
    · rw [hs] at h3; exact absurd h3 (by simp)
  have h1 : (cleanPipeline s).map Char.toLower = cleanPipeline s := by
    apply map_eq_self_of_forall
    intro c hc
    rcases hchars c hc with he | ⟨_, _, _, h4⟩
    · rw [he]; decide
    · exact h4
  have h2 : subHttp (cleanPipeline s) = cleanPipeline s := subHttpAux_id _ hurl
  have h3 : subEmail (cleanPipeline s) = cleanPipeline s := by
    apply subEmailAux_id
    intro hat
    rcases hchars '@' hat with h1' | ⟨hw, _, _, _⟩
    · exact absurd h1' (by decide)
    · exact absurd hw (by decide)
  have h4 : toSpaceNonWord (cleanPipeline s) = cleanPipeline s := by
    apply map_eq_self_of_forall
    intro c hc
    rcases hchars c hc with he | ⟨hw, _, _, _⟩
    · rw [he]; decide
    · rw [if_pos (by simp [hw])]
  have h5 : removeDigits (cleanPipeline s) = cleanPipeline s := by
    rw [removeDigits, List.filter_eq_self]
    intro c hc
    rcases hchars c hc with he | ⟨_, hd, _, _⟩
    · rw [he]; decide
    · simp [hd]
  have h6 : collapseWs (cleanPipeline s) = cleanPipeline s :=
    collapseWsAux_id _ hadj hblank
  have h7 : stripWs (cleanPipeline s) = cleanPipeline s := stripWs_id _ hhead hlast
  show stripWs (collapseWs (removeDigits (toSpaceNonWord (subEmail (subHttp
    ((cleanPipeline s).map Char.toLower)))))) = cleanPipeline s
  rw [h1, h2, h3, h4, h5, h6, h7]

/-! ## Claim C4 -/

/-- Claim C4 counterexample: `clean_text` is not idempotent.  On `"h1ttpx"`
the first pass only deletes the digit, yielding `"httpx"`; the second pass
then matches `http\S+` and deletes everything: cleaning the cleaned output
gives `""`, not `"httpx"`. -/
theorem claim4_counterexample :
    clean_text (some "h1ttpx") = "httpx" ∧
    clean_text (some (clean_text (some "h1ttpx"))) = "" ∧
    clean_text (some (clean_text (some "h1ttpx"))) ≠ clean_text (some "h1ttpx") :=
  ⟨by decide, by decide, by decide⟩

/-- Claim C4 (amended): `clean_text` is total and deterministic, `None` and
empty input yield the empty string, and it is idempotent on every input whose
cleaned output contains no occurrence of `http` followed by a non-whitespace
character; idempotence fails in general because digit removal can manufacture
such a URL-shaped token (see the counterexample). -/
theorem claim4_normalizer_total_idem (x : Option String)
    (h : hasUrlToken (clean_text x) = false) :
    clean_text none = "" ∧ clean_text (some "") = "" ∧
    clean_text (some (clean_text x)) = clean_text x := by
  refine ⟨rfl, rfl, ?_⟩
  rcases x with _ | s
  · rfl
  · by_cases hs : s = ""
    · subst hs; rfl
    · have hdef : clean_text (some s) = ⟨cleanPipeline s.data⟩ := by
        simp [clean_text, hs]
      rw [hdef] at h ⊢
      by_cases hnil : (⟨cleanPipeline s.data⟩ : String) = ""
      · rw [hnil]; rfl
      · have hstep : clean_text (some ⟨cleanPipeline s.data⟩) =
            ⟨cleanPipeline (cleanPipeline s.data)⟩ := by
          simp [clean_text, hnil]
        rw [hstep, cleanPipeline_idem s.data h]

theorem claim4_witness :
    hasUrlToken (clean_text (some "Visit https://ex.am now, email me@ex.am, ref 42!")) =
      false ∧
    (clean_text none = "" ∧ clean_text (some "") = "" ∧
      clean_text (some (clean_text
          (some "Visit https://ex.am now, email me@ex.am, ref 42!"))) =
        clean_text (some "Visit https://ex.am now, email me@ex.am, ref 42!")) :=
  ⟨by decide, claim4_normalizer_total_idem _ (by decide)⟩
